import Mathlib

/-! Verification of `release.go` (adevinta/lava-resources).

A shallow embedding of the release tool and the properties of its reference
parser, release-set derivation, attachment collector and publisher.

Modelling conventions.

* A Go string is a sequence of characters (`GoString`).  Every byte the
  program inspects (`/`, `v`, `.`, `-`, `+`, digits, letters) is ASCII, and
  strings are only cut right after such a byte, so characters and bytes agree
  on every string that is valid UTF-8.
* The outside of the process (environment variable, directory listing,
  subprocesses) is a record `Env` of oracles.  The result of a subprocess may
  depend on everything the process did before, so its oracle takes the trace
  of earlier external actions.
* External actions are recorded, in order, in `World.trace`; diagnostics
  written with `log.Printf` are recorded in `World.log`.
* `log.Fatalf` ends the run: `main` returns the reason as `Except.error`.
-/

namespace Release

/-- A Go string, as the sequence of its characters. -/
abbrev GoString := List Char

deriving instance DecidableEq for Except

/-! ## Package `strings` -/

namespace strings

/-- Go `strings.Split(s, sep)` for a separator `sep` of one byte: the
substrings of `s` between the occurrences of `sep`.  A string without `sep`
gives the one-element list `[s]` (also for the empty string). -/
def Split : GoString → Char → List GoString
  | [], _ => [[]]
  | c :: cs, sep =>
    if c = sep then [] :: Split cs sep
    else
      match Split cs sep with
      | [] => [[c]]
      | p :: ps => (c :: p) :: ps

/-- Go `strings.Join(elems, sep)`: the elements with `sep` between them. -/
def Join (elems : List GoString) (sep : GoString) : GoString :=
  sep.intercalate elems

/-- Go `unicode.IsSpace`: the characters with the Unicode White_Space
property. -/
def isSpace (c : Char) : Bool :=
  let n := c.toNat
  (9 ≤ n && n ≤ 13) || n = 32 || n = 0x85 || n = 0xA0 || n = 0x1680 ||
  (0x2000 ≤ n && n ≤ 0x200a) || n = 0x2028 || n = 0x2029 || n = 0x202f ||
  n = 0x205f || n = 0x3000

/-- Go `strings.TrimSpace(s)`: `s` without leading and trailing white
space. -/
def TrimSpace (s : GoString) : GoString :=
  ((s.dropWhile isSpace).reverse.dropWhile isSpace).reverse

end strings

/-! ## Package `path/filepath`, on Unix

The functions `Clean` and `Join` of Go's standard library, for the Unix
separator `/` and no volume names.  `Clean` writes into a buffer `out`;
below the buffer is the string `out[:out.w]` it holds. -/

namespace filepath

/-- Go `os.IsPathSeparator` on Unix: the slash. -/
def IsPathSeparator (c : Char) : Bool :=
  c = '/'

/-- The backward scan of the `..` case of `Clean`,
`for out.w > dotdot && !os.IsPathSeparator(out.index(out.w))` with body
`out.w--`.  The second argument is the buffer reversed, the third is the byte
`out.index(out.w)` right after it; the result is the buffer reversed. -/
def cleanBack (dotdot : Nat) : GoString → Char → GoString
  | [], _ => []
  | b :: rev, c =>
    if dotdot < (b :: rev).length ∧ !IsPathSeparator c then cleanBack dotdot rev b
    else b :: rev

/-- The loop `for r < n` of Go `Clean`.  The arguments are `rooted`, whether
the loop is inside the copy loop of its last case (`copying`), the rest of
the path `path[r:]`, the buffer and `dotdot`.  In the copy loop a byte that is
not a separator is appended; a separator ends the copy loop and is then
skipped by the first case of the switch. -/
def cleanLoop (rooted : Bool) : Bool → GoString → GoString → Nat → GoString
  | _, [], out, _ => out
  | true, c :: rest, out, dotdot =>
    if IsPathSeparator c then cleanLoop rooted false rest out dotdot
    else cleanLoop rooted true rest (out ++ [c]) dotdot
  | false, c :: rest, out, dotdot =>
    if IsPathSeparator c then
      -- empty path element
      cleanLoop rooted false rest out dotdot
    else if c = '.' ∧ (rest = [] ∨ rest.head?.map IsPathSeparator = some true) then
      -- . element
      cleanLoop rooted false rest out dotdot
    else if c = '.' ∧ rest.head? = some '.' ∧
        (rest.tail = [] ∨ rest.tail.head?.map IsPathSeparator = some true) then
      -- .. element: remove to last separator
      match rest with
      | [] => out
      | _ :: rest =>
        if dotdot < out.length then
          -- can backtrack
          match out.reverse with
          | [] => cleanLoop rooted false rest out dotdot
          | b :: rev => cleanLoop rooted false rest (cleanBack dotdot rev b).reverse dotdot
        else if !rooted then
          -- cannot backtrack, but not rooted, so append .. element
          let out := (if 0 < out.length then out ++ ['/'] else out) ++ ['.', '.']
          cleanLoop rooted false rest out out.length
        else cleanLoop rooted false rest out dotdot
    else
      -- real path element: add slash if needed, copy element
      let out :=
        if (rooted && out.length != 1) || (!rooted && out.length != 0) then out ++ ['/']
        else out
      cleanLoop rooted true rest (out ++ [c]) dotdot

/-- Go `filepath.Clean` on Unix: the shortest path equivalent to `path` by
purely lexical processing. -/
def Clean (path : GoString) : GoString :=
  match path with
  | [] => ['.']
  | c :: rest =>
    let out :=
      if IsPathSeparator c then cleanLoop true false rest ['/'] 1
      else cleanLoop false false (c :: rest) [] 0
    -- Turn empty string into "."
    if out.length = 0 then ['.'] else out

/-- Go `filepath.Join(elem...)` on Unix: the elements from the first
non-empty one on, joined with slashes, and the result cleaned; the empty
string when every element is empty. -/
def Join : List GoString → GoString
  | [] => []
  | e :: elem => if e ≠ [] then Clean (strings.Join (e :: elem) ['/']) else Join elem

end filepath

/-! ## Package `golang.org/x/mod/semver`

The release tool imports this package (`release.go`, line 54) and decides
with it what a version is.  The definitions below follow the package's
`semver.go` function by function.  As its documentation states, the package
accepts `vMAJOR[.MINOR[.PATCH[-PRERELEASE][+BUILD]]]`: `vMAJOR` and
`vMAJOR.MINOR` are shorthands for `vMAJOR.0.0` and `vMAJOR.MINOR.0`. -/

namespace semver

/-- The parsed form of a semantic version string (`type parsed`). -/
structure parsed where
  major : GoString
  minor : GoString
  patch : GoString
  short : GoString
  prerelease : GoString
  build : GoString
  deriving DecidableEq, Repr

/-- The test `'0' <= c && c <= '9'` used throughout the package. -/
def isDigit (c : Char) : Bool :=
  decide ('0' ≤ c) && decide (c ≤ '9')

/-- Go `isIdentChar`: ASCII letters, digits and the hyphen. -/
def isIdentChar (c : Char) : Bool :=
  (decide ('A' ≤ c) && decide (c ≤ 'Z')) || (decide ('a' ≤ c) && decide (c ≤ 'z')) ||
  (decide ('0' ≤ c) && decide (c ≤ '9')) || c = '-'

/-- Go `isBadNum`: `v` is all digits, longer than one byte, and starts with
`0`. -/
def isBadNum (v : GoString) : Bool :=
  let i := (v.takeWhile isDigit).length
  i = v.length && 1 < i && v.head? = some '0'

/-- Go `parseInt`: a leading run of digits without a leading zero (unless
it is `0` itself), and the rest of the string. -/
def parseInt (v : GoString) : Option (GoString × GoString) :=
  match v with
  | [] => none
  | c :: cs =>
    if !isDigit c then none
    else
      let i := 1 + (cs.takeWhile isDigit).length
      if c = '0' && i ≠ 1 then none
      else some (c :: cs.takeWhile isDigit, cs.dropWhile isDigit)

/-- The loop of Go `parsePrerelease`.  `acc` is `v[:i]`, `cur` is
`v[start:i]`, the third argument is `v[i:]`. -/
def parsePrereleaseLoop (acc cur : GoString) : GoString → Option (GoString × GoString)
  | [] => if cur = [] ∨ isBadNum cur then none else some (acc, [])
  | c :: cs =>
    if c = '+' then
      if cur = [] ∨ isBadNum cur then none else some (acc, c :: cs)
    else if !isIdentChar c && c ≠ '.' then none
    else if c = '.' then
      if cur = [] ∨ isBadNum cur then none
      else parsePrereleaseLoop (acc ++ [c]) [] cs
    else parsePrereleaseLoop (acc ++ [c]) (cur ++ [c]) cs

/-- Go `parsePrerelease`: a hyphen and dot-separated non-empty identifiers
of `[0-9A-Za-z-]`, numeric ones without leading zeroes; stops at `+`. -/
def parsePrerelease (v : GoString) : Option (GoString × GoString) :=
  match v with
  | [] => none
  | c :: cs => if c ≠ '-' then none else parsePrereleaseLoop [c] [] cs

/-- The loop of Go `parseBuild`.  `acc` is `v[:i]`, `cur` is `v[start:i]`,
the third argument is `v[i:]`. -/
def parseBuildLoop (acc cur : GoString) : GoString → Option (GoString × GoString)
  | [] => if cur = [] then none else some (acc, [])
  | c :: cs =>
    if !isIdentChar c && c ≠ '.' then none
    else if c = '.' then
      if cur = [] then none else parseBuildLoop (acc ++ [c]) [] cs
    else parseBuildLoop (acc ++ [c]) (cur ++ [c]) cs

/-- Go `parseBuild`: a plus sign and dot-separated non-empty identifiers of
`[0-9A-Za-z-]`, up to the end of the string. -/
def parseBuild (v : GoString) : Option (GoString × GoString) :=
  match v with
  | [] => none
  | c :: cs => if c ≠ '+' then none else parseBuildLoop [c] [] cs

/-- The end of Go `parse`, after the patch number: an optional prerelease,
an optional build, and nothing else. -/
def parseSuffix (major minor patch v : GoString) : Option parsed :=
  match (if v.head? = some '-' then parsePrerelease v else some ([], v)) with
  | none => none
  | some (prerelease, v) =>
    match (if v.head? = some '+' then parseBuild v else some ([], v)) with
    | none => none
    | some (build, v) =>
      if v ≠ [] then none
      else some ⟨major, minor, patch, [], prerelease, build⟩

/-- Go `parse`: the parsed form of `v`, or `none` where Go returns
`ok = false`. -/
def parse (v : GoString) : Option parsed :=
  match v with
  | [] => none
  | c :: v =>
    if c ≠ 'v' then none
    else
      match parseInt v with
      | none => none
      | some (major, v) =>
        match v with
        | [] => some ⟨major, ['0'], ['0'], ['.', '0', '.', '0'], [], []⟩
        | c :: v =>
          if c ≠ '.' then none
          else
            match parseInt v with
            | none => none
            | some (minor, v) =>
              match v with
              | [] => some ⟨major, minor, ['0'], ['.', '0'], [], []⟩
              | c :: v =>
                if c ≠ '.' then none
                else
                  match parseInt v with
                  | none => none
                  | some (patch, v) => parseSuffix major minor patch v

/-- Go `semver.IsValid`. -/
def IsValid (v : GoString) : Bool :=
  (parse v).isSome

/-- Go `semver.Major`: `v[:1+len(pv.major)]`, or the empty string for an
invalid version. -/
def Major (v : GoString) : GoString :=
  match parse v with
  | none => []
  | some pv => v.take (1 + pv.major.length)

/-- Go `semver.MajorMinor`: the `vMAJOR.MINOR` start of `v` (with `.0` added
to a bare `vMAJOR`), or the empty string for an invalid version. -/
def MajorMinor (v : GoString) : GoString :=
  match parse v with
  | none => []
  | some pv =>
    let i := 1 + pv.major.length
    let j := i + 1 + pv.minor.length
    if j ≤ v.length ∧ v[i]? = some '.' ∧ (v.take j).drop (i + 1) = pv.minor then v.take j
    else v.take i ++ ['.'] ++ pv.minor

/-- Go `semver.Prerelease`: the prerelease part with its hyphen, or the
empty string when there is none or the version is invalid. -/
def Prerelease (v : GoString) : GoString :=
  match parse v with
  | none => []
  | some pv => pv.prerelease

end semver

/-! ## `release.go` -/

/-- The errors built with `fmt.Errorf` in `release.go`, one constructor per
format string. -/
inductive Error where
  /-- The `invalid tag name %q` error, with the reference. -/
  | invalidTagName (ref : GoString)
  /-- The `invalid version %q` error, with the version. -/
  | invalidVersion (version : GoString)
  /-- The `cmd output: %w: %#q` error, with the error and the standard error output. -/
  | cmdOutput (err stderr : GoString)
  /-- The `git show-ref: %w` error. -/
  | gitShowRef (err : Error)
  /-- The `gh release create: %w` error. -/
  | ghReleaseCreate (err : Error)
  /-- The `read dir: %w` error, with the error of `os.ReadDir`. -/
  | readDir (err : GoString)
  deriving DecidableEq, Repr

/-- Go `parseRef` (lines 105-119): splits `ref` on `/`, requires exactly two
parts, and requires the second to satisfy `semver.IsValid`.  On an error Go
returns `"", "", err`; here the error alone. -/
def parseRef (ref : GoString) : Except Error (GoString × GoString) :=
  match strings.Split ref '/' with
  | [dir, version] =>
    if !semver.IsValid version then Except.error (Error.invalidVersion version)
    else Except.ok (dir, version)
  | _ => Except.error (Error.invalidTagName ref)

/-! ### The outside of the process -/

/-- An external action of the process, as recorded in the trace. -/
inductive Event where
  /-- One `exec.Command(name, arg...).Output()`: a subprocess run to its end. -/
  | exec (name : GoString) (arg : List GoString)
  /-- One `time.Sleep(d)`, with `d` in nanoseconds (a `time.Duration`). -/
  | sleep (d : Nat)
  deriving DecidableEq, Repr

/-- A diagnostic written with `log.Printf`, one constructor per format
string. -/
inductive LogLine where
  /-- The `warn: could not delete release %q` line, with the tag. -/
  | couldNotDelete (tag : GoString)
  /-- The `warn: skipping dir %q` line, with the entry name. -/
  | skippingDir (name : GoString)
  deriving DecidableEq, Repr

/-- What the process has done so far: the external actions in the order they
were issued, and the diagnostics in the order they were written. -/
structure World where
  trace : List Event
  log : List LogLine
  deriving DecidableEq, Repr

/-- What a finished subprocess gives back: its standard output, its standard
error, and the error of `cmd.Output()` (`none` for `nil`). -/
structure CmdResult where
  out : GoString
  stderr : GoString
  err : Option GoString
  deriving DecidableEq, Repr

/-- An `os.DirEntry`, reduced to the two methods `readDir` calls. -/
structure DirEntry where
  Name : GoString
  IsDir : Bool
  deriving DecidableEq, Repr

/-- The outside of the process.
* `GITHUB_REF_NAME` is `os.Getenv("GITHUB_REF_NAME")` (empty when unset).
* `ReadDir dir` is `os.ReadDir(dir)`: the entries read and the error
  (`none` for `nil`).
* `Join dir name` is `filepath.Join(dir, name)`, which depends on the
  operating system; `filepath.Join` above is the one of Unix.
* `Output trace name arg` is what `exec.Command(name, arg...).Output()`
  gives when the process has issued `trace` before. -/
structure Env where
  GITHUB_REF_NAME : GoString
  ReadDir : GoString → List DirEntry × Option GoString
  Join : GoString → GoString → GoString
  Output : List Event → GoString → List GoString → CmdResult

/-- Go `time.Second`, in nanoseconds. -/
def time.Second : Nat := 1000000000

/-! ### The functions of `release.go` -/

/-- Go `cmdOutput` (lines 185-194): runs the command and returns its trimmed
standard output, or the error together with the standard error output. -/
def cmdOutput (env : Env) (name : GoString) (arg : List GoString) (w : World) :
    Except Error GoString × World :=
  let r := env.Output w.trace name arg
  let w := { w with trace := w.trace ++ [Event.exec name arg] }
  match r.err with
  | some err => (Except.error (Error.cmdOutput err r.stderr), w)
  | none => (Except.ok (strings.TrimSpace r.out), w)

/-- Go `gitHash` (lines 123-129): the hash of `ref` given by
`git show-ref --hash ref`. -/
def gitHash (env : Env) (ref : GoString) (w : World) : Except Error GoString × World :=
  match cmdOutput env "git".toList ["show-ref".toList, "--hash".toList, ref] w with
  | (Except.error err, w) => (Except.error (Error.gitShowRef err), w)
  | (Except.ok hash, w) => (Except.ok hash, w)

/-- Go `ghRelease` (lines 134-160).  With `update`, it first runs
`gh release delete --cleanup-tag --yes tag`, writes a warning if that fails,
and sleeps 30 seconds; then it runs
`gh release create --target target tag files...`.  The result is Go's
`error` (`none` for `nil`). -/
def ghRelease (env : Env) (tag target : GoString) (update : Bool) (files : List GoString)
    (w : World) : Option Error × World :=
  let w :=
    if update then
      let w :=
        match cmdOutput env "gh".toList
            ["release".toList, "delete".toList, "--cleanup-tag".toList, "--yes".toList, tag] w with
        | (Except.error _, w) => { w with log := w.log ++ [LogLine.couldNotDelete tag] }
        | (Except.ok _, w) => w
      { w with trace := w.trace ++ [Event.sleep (30 * time.Second)] }
    else w
  let args := ["release".toList, "create".toList, "--target".toList, target, tag]
  let args := args ++ files
  match cmdOutput env "gh".toList args w with
  | (Except.error err, w) => (some (Error.ghReleaseCreate err), w)
  | (Except.ok _, w) => (none, w)

/-- The loop of Go `readDir` (lines 171-177): a directory entry is skipped
with a warning, any other entry adds `filepath.Join(dir, entry.Name())` to
`files`. -/
def readDirLoop (env : Env) (dir : GoString) :
    List DirEntry → List GoString → World → List GoString × World
  | [], files, w => (files, w)
  | entry :: entries, files, w =>
    if entry.IsDir then
      readDirLoop env dir entries files
        { w with log := w.log ++ [LogLine.skippingDir entry.Name] }
    else
      readDirLoop env dir entries (files ++ [env.Join dir entry.Name]) w

/-- Go `readDir` (lines 164-180): the files of `dir`, or the error of
`os.ReadDir` (with Go's `nil` slice, here no list at all). -/
def readDir (env : Env) (dir : GoString) (w : World) :
    Except Error (List GoString) × World :=
  match env.ReadDir dir with
  | (_, some err) => (Except.error (Error.readDir err), w)
  | (entries, none) =>
    match readDirLoop env dir entries [] w with
    | (files, w) => (Except.ok files, w)

/-- The reasons for which `main` ends with `log.Fatalf`, one constructor per
call. -/
inductive Fatal where
  /-- The `error: missing env var GITHUB_REF_NAME` exit. -/
  | missingEnv
  /-- The `error: parse ref: %v` exit. -/
  | parseRef (err : Error)
  /-- The `error: list files: %v` exit. -/
  | listFiles (err : Error)
  /-- The `error: get hash: %v` exit. -/
  | getHash (err : Error)
  /-- The `error: create GitHub release %q: %v` exit, with the tag. -/
  | createRelease (tag : GoString) (err : Error)
  deriving DecidableEq, Repr

/-- The value of `releases` that `main` builds in lines 80-87: the major and
major.minor versions unless `version` is a prerelease, then `version`. -/
def releases (version : GoString) : List GoString :=
  let releases : List GoString :=
    if semver.Prerelease version = [] then [semver.Major version, semver.MajorMinor version]
    else []
  releases ++ [version]

/-- The variable `tag` of the loop of `main` (line 90), for the release
`r`: `dir + "/" + r`. -/
@[reducible] def mainLoop.tag (dir r : GoString) : GoString :=
  dir ++ "/".toList ++ r

/-- The variable `update` of the loop of `main` (line 93), for the release
`r`: `tag != refName`. -/
@[reducible] def mainLoop.update (dir refName r : GoString) : Bool :=
  mainLoop.tag dir r != refName

/-- The loop of `main` (lines 89-98): for each release `r`, in order,
`ghRelease` is called with the tag and the update flag of `r`, and its first
error ends the run. -/
def mainLoop (env : Env) (dir refName hash : GoString) (files : List GoString) :
    List GoString → World → Except Fatal Unit × World
  | [], w => (Except.ok (), w)
  | r :: rs, w =>
    match ghRelease env (mainLoop.tag dir r) hash (mainLoop.update dir refName r) files w with
    | (some err, w) => (Except.error (Fatal.createRelease (mainLoop.tag dir r) err), w)
    | (none, w) => mainLoop env dir refName hash files rs w

/-- Go `main` (lines 57-99). -/
def main (env : Env) (w : World) : Except Fatal Unit × World :=
  let refName := env.GITHUB_REF_NAME
  if refName = [] then (Except.error Fatal.missingEnv, w)
  else
    match parseRef refName with
    | Except.error err => (Except.error (Fatal.parseRef err), w)
    | Except.ok (dir, version) =>
      match readDir env dir w with
      | (Except.error err, w) => (Except.error (Fatal.listFiles err), w)
      | (Except.ok files, w) =>
        match gitHash env refName w with
        | (Except.error err, w) => (Except.error (Fatal.getHash err), w)
        | (Except.ok hash, w) => mainLoop env dir refName hash files (releases version) w

/-! ### Vocabulary of the statements -/

/-- The arguments of the `gh release delete` command that `ghRelease` runs
for `tag`. -/
def deleteArgs (tag : GoString) : List GoString :=
  ["release".toList, "delete".toList, "--cleanup-tag".toList, "--yes".toList, tag]

/-- The arguments of the `gh release create` command that `ghRelease` runs
for `tag`. -/
def createArgs (target tag : GoString) (files : List GoString) : List GoString :=
  ["release".toList, "create".toList, "--target".toList, target, tag] ++ files

/-- The external actions of a call of `ghRelease` that come before its
create request: with `update` the delete request and the 30 seconds of
sleep, otherwise nothing. -/
def deleteEvents (tag : GoString) (update : Bool) : List Event :=
  if update then [Event.exec "gh".toList (deleteArgs tag), Event.sleep (30 * time.Second)]
  else []

/-- The external actions of one round of the loop of `main`, for the
release `r`. -/
def releaseEvents (dir refName hash : GoString) (files : List GoString) (r : GoString) :
    List Event :=
  deleteEvents (dir ++ "/".toList ++ r) (dir ++ "/".toList ++ r != refName) ++
    [Event.exec "gh".toList (createArgs hash (dir ++ "/".toList ++ r) files)]

/-- What the outside answers to the create request for `r`, the release at
index `i` of `rs`, when the loop of `main` started after the trace `t` and
went through the releases before `r`. -/
def createResult (env : Env) (dir refName hash : GoString) (files : List GoString)
    (t : List Event) (rs : List GoString) (i : Nat) (r : GoString) : CmdResult :=
  env.Output
    (t ++ (rs.take i).flatMap (releaseEvents dir refName hash files) ++
      deleteEvents (dir ++ "/".toList ++ r) (dir ++ "/".toList ++ r != refName))
    "gh".toList (createArgs hash (dir ++ "/".toList ++ r) files)

/-- The shapes of version that `semver.IsValid` can accept: `vMAJOR`,
`vMAJOR.MINOR`, or `vMAJOR.MINOR.PATCH[-PRERELEASE][+BUILD]`, the three
numbers being non-empty runs of digits. -/
def semver.HasForm (v : GoString) : Prop :=
  ∃ major : GoString, major ≠ [] ∧ (∀ c ∈ major, semver.isDigit c = true) ∧
    (v = 'v' :: major ∨
      ∃ minor : GoString, minor ≠ [] ∧ (∀ c ∈ minor, semver.isDigit c = true) ∧
        (v = 'v' :: (major ++ '.' :: minor) ∨
          ∃ patch pre build : GoString, patch ≠ [] ∧
            (∀ c ∈ patch, semver.isDigit c = true) ∧
            (pre = [] ∨ pre.head? = some '-') ∧ (build = [] ∨ build.head? = some '+') ∧
            v = 'v' :: (major ++ '.' :: (minor ++ '.' :: (patch ++ (pre ++ build))))))

/-- The action `e` is a delete request for a tag and the action `e'` a
create request for the same tag. -/
def deletesCreated (e' e : Event) : Prop :=
  ∃ tag target files, e = Event.exec "gh".toList (deleteArgs tag) ∧
    e' = Event.exec "gh".toList (createArgs target tag files)

/-- An outside for the examples: the reference `ref`, a directory listing
with the files `a.bin` and `b.bin` and the subdirectory `extra`, paths joined
with a slash, and subprocesses that all succeed and print `abc` followed by
a line feed. -/
def exampleEnv (ref : GoString) : Env where
  GITHUB_REF_NAME := ref
  ReadDir := fun _ =>
    ([⟨"a.bin".toList, false⟩, ⟨"b.bin".toList, false⟩, ⟨"extra".toList, true⟩], none)
  Join := fun dir name => dir ++ "/".toList ++ name
  Output := fun _ _ _ => ⟨"abc\n".toList, [], none⟩

/-- The outside of `exampleEnv` with the `filepath.Join` of Unix. -/
def unixEnv (ref : GoString) : Env :=
  { exampleEnv ref with Join := fun dir name => filepath.Join [dir, name] }

/-- The world before the process has done anything. -/
def World.init : World := ⟨[], []⟩

/-! ## Lemmas on `strings.Split` -/

namespace strings

theorem Split_ne_nil (s : GoString) (sep : Char) : Split s sep ≠ [] := by
  induction s with
  | nil => simp [Split]
  | cons c cs ih =>
    unfold Split
    split_ifs
    · simp
    · split <;> simp

/-- A string without the separator is its own single part. -/
theorem Split_of_not_mem (s : GoString) (sep : Char) (h : sep ∉ s) : Split s sep = [s] := by
  induction s with
  | nil => simp [Split]
  | cons c cs ih =>
    have hc : ¬ c = sep := fun e => h (by simp [e])
    have hcs : sep ∉ cs := fun e => h (by simp [e])
    unfold Split
    rw [if_neg hc, ih hcs]

/-- Splitting goes through the first separator. -/
theorem Split_append (d rest : GoString) (sep : Char) (h : sep ∉ d) :
    Split (d ++ sep :: rest) sep = d :: Split rest sep := by
  induction d with
  | nil => simp [Split]
  | cons c cs ih =>
    have hc : ¬ c = sep := fun e => h (by simp [e])
    have hcs : sep ∉ cs := fun e => h (by simp [e])
    rw [List.cons_append]
    conv_lhs => unfold Split
    rw [if_neg hc, ih hcs]

/-- The number of parts is one more than the number of separators. -/
theorem length_Split (s : GoString) (sep : Char) :
    (Split s sep).length = s.count sep + 1 := by
  induction s with
  | nil => simp [Split]
  | cons c cs ih =>
    unfold Split
    by_cases hc : c = sep
    · rw [if_pos hc]
      simp [hc, ih]
    · rw [if_neg hc]
      have hne := Split_ne_nil cs sep
      rw [List.count_cons_of_ne (fun e => hc e.symm)]
      cases hs : Split cs sep with
      | nil => exact absurd hs hne
      | cons p ps => rw [hs] at ih; simpa using ih

/-- A single part is the whole string, and it has no separator. -/
theorem eq_of_Split_eq_singleton (s v : GoString) (sep : Char) (h : Split s sep = [v]) :
    s = v ∧ sep ∉ v := by
  have hl := length_Split s sep
  rw [h] at hl
  have h0 : s.count sep = 0 := by simpa using hl.symm
  have hmem : sep ∉ s := List.count_eq_zero.mp h0
  rw [Split_of_not_mem s sep hmem] at h
  have : s = v := by simpa using h
  exact ⟨this, this ▸ hmem⟩

/-- Two parts are what stands before and after the only separator. -/
theorem eq_of_Split_eq_pair (s d v : GoString) (sep : Char) (h : Split s sep = [d, v]) :
    s = d ++ sep :: v ∧ sep ∉ d ∧ sep ∉ v := by
  induction s generalizing d with
  | nil => simp [Split] at h
  | cons c cs ih =>
    unfold Split at h
    by_cases hc : c = sep
    · rw [if_pos hc] at h
      have hd : d = [] := by simpa using (List.cons.inj h).1.symm
      have hv : Split cs sep = [v] := (List.cons.inj h).2
      obtain ⟨h1, h2⟩ := eq_of_Split_eq_singleton cs v sep hv
      subst hd
      simp [hc, h1, h2]
    · rw [if_neg hc] at h
      cases hs : Split cs sep with
      | nil => exact absurd hs (Split_ne_nil cs sep)
      | cons p ps =>
        rw [hs] at h
        have hd : c :: p = d := (List.cons.inj h).1
        have hps : ps = [v] := (List.cons.inj h).2
        subst hps
        obtain ⟨h1, h2, h3⟩ := ih p hs
        subst hd
        refine ⟨by simp [h1], ?_, h3⟩
        intro hm
        rcases List.mem_cons.mp hm with e | e
        · exact hc e.symm
        · exact h2 e

end strings

/-! ## Lemmas on the `semver` package -/

namespace semver

theorem isDigit_ne_slash (c : Char) (h : isDigit c = true) : c ≠ '/' := by
  rintro rfl
  exact absurd h (by decide)

theorem ident_or_dot_ne_slash (c : Char) (h : (!isIdentChar c && c ≠ '.') = false) :
    c ≠ '/' := by
  rintro rfl
  exact absurd h (by decide)

/-- What `parseInt` returns: the input cut in two, the first part a non-empty
run of digits. -/
theorem parseInt_spec (v t rest : GoString) (h : parseInt v = some (t, rest)) :
    v = t ++ rest ∧ (∀ c ∈ t, isDigit c = true) ∧ t ≠ [] := by
  cases v with
  | nil => simp [parseInt] at h
  | cons c cs =>
    simp only [parseInt] at h
    split_ifs at h with h1 h2
    simp only [Option.some.injEq, Prod.mk.injEq] at h
    obtain ⟨rfl, rfl⟩ := h
    refine ⟨by simp, ?_, by simp⟩
    intro x hx
    rcases List.mem_cons.mp hx with e | e
    · subst e
      simpa using h1
    · exact List.mem_takeWhile_imp e

/-- The loop of `parsePrerelease` returns the input cut in two and adds no
slash to what it has read. -/
theorem parsePrereleaseLoop_spec (v acc cur t rest : GoString)
    (h : parsePrereleaseLoop acc cur v = some (t, rest)) (hacc : '/' ∉ acc) :
    acc ++ v = t ++ rest ∧ '/' ∉ t := by
  induction v generalizing acc cur with
  | nil =>
    simp only [parsePrereleaseLoop] at h
    split_ifs at h
    simp only [Option.some.injEq, Prod.mk.injEq] at h
    obtain ⟨rfl, rfl⟩ := h
    exact ⟨rfl, hacc⟩
  | cons c cs ih =>
    simp only [parsePrereleaseLoop] at h
    split_ifs at h with h1 h2 h3 h4 h5
    · simp only [Option.some.injEq, Prod.mk.injEq] at h
      obtain ⟨rfl, rfl⟩ := h
      exact ⟨rfl, hacc⟩
    · have hc : c ≠ '/' := ident_or_dot_ne_slash c (by simpa using h3)
      have := ih (acc ++ [c]) [] h (by simp [hacc, hc.symm])
      simpa using this
    · have hc : c ≠ '/' := ident_or_dot_ne_slash c (by simpa using h3)
      have := ih (acc ++ [c]) (cur ++ [c]) h (by simp [hacc, hc.symm])
      simpa using this

/-- The loop of `parseBuild` returns the input cut in two and adds no slash
to what it has read. -/
theorem parseBuildLoop_spec (v acc cur t rest : GoString)
    (h : parseBuildLoop acc cur v = some (t, rest)) (hacc : '/' ∉ acc) :
    acc ++ v = t ++ rest ∧ '/' ∉ t := by
  induction v generalizing acc cur with
  | nil =>
    simp only [parseBuildLoop] at h
    split_ifs at h
    simp only [Option.some.injEq, Prod.mk.injEq] at h
    obtain ⟨rfl, rfl⟩ := h
    exact ⟨rfl, hacc⟩
  | cons c cs ih =>
    simp only [parseBuildLoop] at h
    split_ifs at h with h1 h2 h3
    · have hc : c ≠ '/' := ident_or_dot_ne_slash c (by simpa using h1)
      have := ih (acc ++ [c]) [] h (by simp [hacc, hc.symm])
      simpa using this
    · have hc : c ≠ '/' := ident_or_dot_ne_slash c (by simpa using h1)
      have := ih (acc ++ [c]) (cur ++ [c]) h (by simp [hacc, hc.symm])
      simpa using this

theorem parsePrerelease_spec (v t rest : GoString) (h : parsePrerelease v = some (t, rest)) :
    v = t ++ rest ∧ '/' ∉ t := by
  cases v with
  | nil => simp [parsePrerelease] at h
  | cons c cs =>
    simp only [parsePrerelease] at h
    split_ifs at h with h1
    have hc : c = '-' := by simpa using h1
    subst hc
    have := parsePrereleaseLoop_spec cs ['-'] [] t rest h (by decide)
    simpa using this

theorem parseBuild_spec (v t rest : GoString) (h : parseBuild v = some (t, rest)) :
    v = t ++ rest ∧ '/' ∉ t := by
  cases v with
  | nil => simp [parseBuild] at h
  | cons c cs =>
    simp only [parseBuild] at h
    split_ifs at h with h1
    have hc : c = '+' := by simpa using h1
    subst hc
    have := parseBuildLoop_spec cs ['+'] [] t rest h (by decide)
    simpa using this

/-- What `parseSuffix` accepts has no slash, and the numbers are passed
on. -/
theorem parseSuffix_spec (major minor patch v : GoString) (pv : parsed)
    (h : parseSuffix major minor patch v = some pv) :
    '/' ∉ v ∧ pv.major = major ∧ pv.minor = minor := by
  unfold parseSuffix at h
  have h1 : ∃ pre v1, (if v.head? = some '-' then parsePrerelease v else some ([], v))
      = some (pre, v1) := by
    cases e : (if v.head? = some '-' then parsePrerelease v else some ([], v)) with
    | none => rw [e] at h; simp at h
    | some q => exact ⟨q.1, q.2, rfl⟩
  obtain ⟨pre, v1, e1⟩ := h1
  rw [e1] at h
  simp only at h
  have h2 : ∃ build v2, (if v1.head? = some '+' then parseBuild v1 else some ([], v1))
      = some (build, v2) := by
    cases e : (if v1.head? = some '+' then parseBuild v1 else some ([], v1)) with
    | none => rw [e] at h; simp at h
    | some q => exact ⟨q.1, q.2, rfl⟩
  obtain ⟨build, v2, e2⟩ := h2
  rw [e2] at h
  simp only at h
  split_ifs at h with h3
  have hv2 : v2 = [] := by simpa using h3
  subst hv2
  have hp : v = pre ++ v1 ∧ '/' ∉ pre := by
    split_ifs at e1 with c1
    · exact parsePrerelease_spec v pre v1 e1
    · simp only [Option.some.injEq, Prod.mk.injEq] at e1
      obtain ⟨rfl, rfl⟩ := e1
      simp
  have hb : v1 = build ++ [] ∧ '/' ∉ build := by
    split_ifs at e2 with c2
    · exact parseBuild_spec v1 build [] e2
    · simp only [Option.some.injEq, Prod.mk.injEq] at e2
      obtain ⟨rfl, rfl⟩ := e2
      simp
  simp only [Option.some.injEq] at h
  subst h
  refine ⟨?_, rfl, rfl⟩
  rw [hp.1, hb.1]
  simp [hp.2, hb.2]

theorem digits_no_slash (t : GoString) (h : ∀ c ∈ t, isDigit c = true) : '/' ∉ t :=
  fun hm => isDigit_ne_slash '/' (h '/' hm) rfl

/-- What `parse` accepts: no slash anywhere, and the string starts with `v`
and the major number, followed either by nothing (then the minor number is
taken as `0`) or by a dot and the minor number. -/
theorem parse_spec (v : GoString) (pv : parsed) (h : parse v = some pv) :
    '/' ∉ v ∧ ((v = 'v' :: pv.major ∧ pv.minor = ['0'] ∧ pv.prerelease = []) ∨
      (v = 'v' :: (pv.major ++ '.' :: pv.minor) ∧ pv.prerelease = []) ∨
      ∃ tail, v = 'v' :: (pv.major ++ '.' :: (pv.minor ++ '.' :: tail))) := by
  cases v with
  | nil => simp [parse] at h
  | cons c v1 =>
    simp only [parse] at h
    split_ifs at h with hc
    have hc : c = 'v' := by simpa using hc
    subst hc
    cases e1 : parseInt v1 with
    | none => rw [e1] at h; simp at h
    | some q1 =>
      obtain ⟨major, v2⟩ := q1
      rw [e1] at h
      obtain ⟨hv1, hd1, -⟩ := parseInt_spec v1 major v2 e1
      have hs1 := digits_no_slash major hd1
      cases v2 with
      | nil =>
        simp only [Option.some.injEq] at h
        subst h
        subst hv1
        simp [hs1]
      | cons c2 v3 =>
        simp only at h
        split_ifs at h with hc2
        have hc2 : c2 = '.' := by simpa using hc2
        subst hc2
        cases e2 : parseInt v3 with
        | none => rw [e2] at h; simp at h
        | some q2 =>
          obtain ⟨minor, v4⟩ := q2
          rw [e2] at h
          obtain ⟨hv3, hd3, -⟩ := parseInt_spec v3 minor v4 e2
          have hs3 := digits_no_slash minor hd3
          cases v4 with
          | nil =>
            simp only [Option.some.injEq] at h
            subst h
            subst hv3
            subst hv1
            refine ⟨by simp [hs1, hs3], Or.inr (Or.inl (by simp))⟩
          | cons c4 v5 =>
            simp only at h
            split_ifs at h with hc4
            have hc4 : c4 = '.' := by simpa using hc4
            subst hc4
            cases e3 : parseInt v5 with
            | none => rw [e3] at h; simp at h
            | some q3 =>
              obtain ⟨patch, v6⟩ := q3
              rw [e3] at h
              simp only at h
              obtain ⟨hv5, hd5, -⟩ := parseInt_spec v5 patch v6 e3
              have hs5 := digits_no_slash patch hd5
              obtain ⟨hs6, hmaj, hmin⟩ := parseSuffix_spec major minor patch v6 pv h
              subst hv5
              subst hv3
              subst hv1
              refine ⟨by simp [hs1, hs3, hs5, hs6], Or.inr (Or.inr ⟨patch ++ v6, ?_⟩)⟩
              simp [hmaj, hmin]

/-- The two shapes of a valid version that `Major` and `MajorMinor`
tell apart: a bare `vMAJOR`, or `vMAJOR.MINOR` and more. -/
theorem parse_shape (v : GoString) (pv : parsed) (h : parse v = some pv) :
    (v = 'v' :: pv.major ∧ pv.minor = ['0']) ∨
      ∃ tail, v = 'v' :: (pv.major ++ '.' :: (pv.minor ++ tail)) := by
  rcases (parse_spec v pv h).2 with ⟨h1, h2, -⟩ | ⟨h1, -⟩ | ⟨tail, h1⟩
  · exact Or.inl ⟨h1, h2⟩
  · exact Or.inr ⟨[], by simpa using h1⟩
  · exact Or.inr ⟨'.' :: tail, h1⟩

/-- A valid version has no slash. -/
theorem not_mem_of_IsValid (v : GoString) (h : IsValid v = true) : '/' ∉ v := by
  unfold IsValid at h
  cases e : parse v with
  | none => rw [e] at h; simp at h
  | some pv => exact (parse_spec v pv e).1

/-- For a valid version, `Major` is `v` and the major number. -/
theorem Major_eq (v : GoString) (pv : parsed) (h : parse v = some pv) :
    Major v = 'v' :: pv.major := by
  unfold Major
  rw [h]
  rcases parse_shape v pv h with ⟨hv, -⟩ | ⟨tail, hv⟩
  · rw [hv]
    simp [Nat.add_comm]
  · rw [hv]
    simp [Nat.add_comm]

/-- For a valid version, `MajorMinor` is `v`, the major number, a dot and
the minor number. -/
theorem MajorMinor_eq (v : GoString) (pv : parsed) (h : parse v = some pv) :
    MajorMinor v = 'v' :: (pv.major ++ '.' :: pv.minor) := by
  unfold MajorMinor
  rw [h]
  rcases parse_shape v pv h with ⟨hv, hm⟩ | ⟨tail, hv⟩
  · simp only
    rw [if_neg]
    · rw [hv, hm]
      simp [Nat.add_comm]
    · rw [hv, hm]
      simp
      omega
  · simp only
    have hj : 1 + pv.major.length + 1 + pv.minor.length ≤ v.length := by
      rw [hv]
      simp
      omega
    have hi : v[1 + pv.major.length]? = some '.' := by
      rw [hv, Nat.add_comm 1, List.getElem?_cons_succ,
        List.getElem?_append_right (le_refl _)]
      simp
    have htake : v.take (1 + pv.major.length + 1 + pv.minor.length)
        = 'v' :: (pv.major ++ '.' :: pv.minor) := by
      rw [hv]
      have : 1 + pv.major.length + 1 + pv.minor.length
          = ('v' :: (pv.major ++ '.' :: pv.minor)).length := by
        simp
        omega
      rw [this]
      have e : 'v' :: (pv.major ++ '.' :: (pv.minor ++ tail))
          = ('v' :: (pv.major ++ '.' :: pv.minor)) ++ tail := by simp
      rw [e, List.take_left]
    have hslice : (v.take (1 + pv.major.length + 1 + pv.minor.length)).drop
        (1 + pv.major.length + 1) = pv.minor := by
      rw [htake]
      have : 1 + pv.major.length + 1 = ('v' :: (pv.major ++ ['.'])).length := by
        simp
        omega
      rw [this]
      have e : 'v' :: (pv.major ++ '.' :: pv.minor)
          = ('v' :: (pv.major ++ ['.'])) ++ pv.minor := by simp
      rw [e, List.drop_left]
    rw [if_pos ⟨hj, hi, hslice⟩]
    exact htake

/-- The two floating versions of a valid version differ. -/
theorem Major_ne_MajorMinor (v : GoString) (h : IsValid v = true) :
    Major v ≠ MajorMinor v := by
  unfold IsValid at h
  cases e : parse v with
  | none => rw [e] at h; simp at h
  | some pv =>
    rw [Major_eq v pv e, MajorMinor_eq v pv e]
    intro hh
    have := congrArg List.length hh
    simp at this

/-- A version with a prerelease part is neither its own `Major` nor its own
`MajorMinor`. -/
theorem ne_of_Prerelease_ne (v : GoString) (h : Prerelease v ≠ []) :
    Major v ≠ v ∧ MajorMinor v ≠ v := by
  unfold Prerelease at h
  cases e : parse v with
  | none => rw [e] at h; simp at h
  | some pv =>
    rw [e] at h
    simp only at h
    rw [Major_eq v pv e, MajorMinor_eq v pv e]
    rcases (parse_spec v pv e).2 with ⟨-, -, h3⟩ | ⟨-, h3⟩ | ⟨tail, hv⟩
    · exact absurd h3 h
    · exact absurd h3 h
    · constructor
      · intro hh
        have := congrArg List.length hh
        rw [hv] at this
        simp at this
      · intro hh
        have := congrArg List.length hh
        rw [hv] at this
        simp at this

/-- What the loop of `parsePrerelease` returns starts with what it had
read. -/
theorem parsePrereleaseLoop_acc (v acc cur t rest : GoString)
    (h : parsePrereleaseLoop acc cur v = some (t, rest)) : ∃ u, t = acc ++ u := by
  induction v generalizing acc cur with
  | nil =>
    simp only [parsePrereleaseLoop] at h
    split_ifs at h
    simp only [Option.some.injEq, Prod.mk.injEq] at h
    exact ⟨[], by simp [h.1]⟩
  | cons c cs ih =>
    simp only [parsePrereleaseLoop] at h
    split_ifs at h with h1 h2 h3 h4 h5
    · simp only [Option.some.injEq, Prod.mk.injEq] at h
      exact ⟨[], by simp [h.1]⟩
    · obtain ⟨u, hu⟩ := ih (acc ++ [c]) [] h
      exact ⟨c :: u, by simp [hu]⟩
    · obtain ⟨u, hu⟩ := ih (acc ++ [c]) (cur ++ [c]) h
      exact ⟨c :: u, by simp [hu]⟩

/-- What the loop of `parseBuild` returns starts with what it had read. -/
theorem parseBuildLoop_acc (v acc cur t rest : GoString)
    (h : parseBuildLoop acc cur v = some (t, rest)) : ∃ u, t = acc ++ u := by
  induction v generalizing acc cur with
  | nil =>
    simp only [parseBuildLoop] at h
    split_ifs at h
    simp only [Option.some.injEq, Prod.mk.injEq] at h
    exact ⟨[], by simp [h.1]⟩
  | cons c cs ih =>
    simp only [parseBuildLoop] at h
    split_ifs at h with h1 h2 h3
    · obtain ⟨u, hu⟩ := ih (acc ++ [c]) [] h
      exact ⟨c :: u, by simp [hu]⟩
    · obtain ⟨u, hu⟩ := ih (acc ++ [c]) (cur ++ [c]) h
      exact ⟨c :: u, by simp [hu]⟩

/-- What `parseSuffix` accepts is a prerelease part, empty or starting with
a hyphen, and a build part, empty or starting with a plus sign. -/
theorem parseSuffix_form (major minor patch v : GoString) (pv : parsed)
    (h : parseSuffix major minor patch v = some pv) :
    ∃ pre build : GoString, v = pre ++ build ∧ (pre = [] ∨ pre.head? = some '-') ∧
      (build = [] ∨ build.head? = some '+') := by
  unfold parseSuffix at h
  have h1 : ∃ pre v1, (if v.head? = some '-' then parsePrerelease v else some ([], v))
      = some (pre, v1) := by
    cases e : (if v.head? = some '-' then parsePrerelease v else some ([], v)) with
    | none => rw [e] at h; simp at h
    | some q => exact ⟨q.1, q.2, rfl⟩
  obtain ⟨pre, v1, e1⟩ := h1
  rw [e1] at h
  simp only at h
  have h2 : ∃ build v2, (if v1.head? = some '+' then parseBuild v1 else some ([], v1))
      = some (build, v2) := by
    cases e : (if v1.head? = some '+' then parseBuild v1 else some ([], v1)) with
    | none => rw [e] at h; simp at h
    | some q => exact ⟨q.1, q.2, rfl⟩
  obtain ⟨build, v2, e2⟩ := h2
  rw [e2] at h
  simp only at h
  split_ifs at h with h3
  have hv2 : v2 = [] := by simpa using h3
  subst hv2
  have hp : v = pre ++ v1 ∧ (pre = [] ∨ pre.head? = some '-') := by
    split_ifs at e1 with c1
    · refine ⟨(parsePrerelease_spec v pre v1 e1).1, Or.inr ?_⟩
      cases v with
      | nil => simp at c1
      | cons c cs =>
        simp only [parsePrerelease] at e1
        split_ifs at e1 with h4
        obtain ⟨u, hu⟩ := parsePrereleaseLoop_acc cs [c] [] pre v1 e1
        have hc : c = '-' := by simpa using c1
        rw [hu, hc]
        rfl
    · simp only [Option.some.injEq, Prod.mk.injEq] at e1
      obtain ⟨rfl, rfl⟩ := e1
      simp
  have hb : v1 = build ++ [] ∧ (build = [] ∨ build.head? = some '+') := by
    split_ifs at e2 with c2
    · refine ⟨(parseBuild_spec v1 build [] e2).1, Or.inr ?_⟩
      cases v1 with
      | nil => simp at c2
      | cons c cs =>
        simp only [parseBuild] at e2
        split_ifs at e2 with h4
        obtain ⟨u, hu⟩ := parseBuildLoop_acc cs [c] [] build [] e2
        have hc : c = '+' := by simpa using c2
        rw [hu, hc]
        rfl
    · simp only [Option.some.injEq, Prod.mk.injEq] at e2
      obtain ⟨rfl, rfl⟩ := e2
      simp
  refine ⟨pre, build, ?_, hp.2, hb.2⟩
  rw [hp.1, hb.1]
  simp

/-- What `parse` accepts has one of the three shapes of `HasForm`. -/
theorem HasForm_of_parse (v : GoString) (pv : parsed) (h : parse v = some pv) :
    HasForm v := by
  cases v with
  | nil => simp [parse] at h
  | cons c v1 =>
    simp only [parse] at h
    split_ifs at h with hc
    have hc : c = 'v' := by simpa using hc
    subst hc
    cases e1 : parseInt v1 with
    | none => rw [e1] at h; simp at h
    | some q1 =>
      obtain ⟨major, v2⟩ := q1
      rw [e1] at h
      obtain ⟨hv1, hd1, hn1⟩ := parseInt_spec v1 major v2 e1
      refine ⟨major, hn1, hd1, ?_⟩
      cases v2 with
      | nil =>
        subst hv1
        exact Or.inl (by simp)
      | cons c2 v3 =>
        simp only at h
        split_ifs at h with hc2
        have hc2 : c2 = '.' := by simpa using hc2
        subst hc2
        cases e2 : parseInt v3 with
        | none => rw [e2] at h; simp at h
        | some q2 =>
          obtain ⟨minor, v4⟩ := q2
          rw [e2] at h
          obtain ⟨hv3, hd3, hn3⟩ := parseInt_spec v3 minor v4 e2
          refine Or.inr ⟨minor, hn3, hd3, ?_⟩
          cases v4 with
          | nil =>
            subst hv3
            subst hv1
            exact Or.inl (by simp)
          | cons c4 v5 =>
            simp only at h
            split_ifs at h with hc4
            have hc4 : c4 = '.' := by simpa using hc4
            subst hc4
            cases e3 : parseInt v5 with
            | none => rw [e3] at h; simp at h
            | some q3 =>
              obtain ⟨patch, v6⟩ := q3
              rw [e3] at h
              simp only at h
              obtain ⟨hv5, hd5, hn5⟩ := parseInt_spec v5 patch v6 e3
              obtain ⟨pre, build, hv6, hpre, hbuild⟩ :=
                parseSuffix_form major minor patch v6 pv h
              subst hv5
              subst hv3
              subst hv1
              refine Or.inr ⟨patch, pre, build, hn5, hd5, hpre, hbuild, ?_⟩
              rw [hv6]

/-- A valid version has one of the three shapes of `HasForm`. -/
theorem HasForm_of_IsValid (v : GoString) (h : IsValid v = true) : HasForm v := by
  unfold IsValid at h
  cases e : parse v with
  | none => rw [e] at h; simp at h
  | some pv => exact HasForm_of_parse v pv e

/-- A valid version is its own `Major`, or its own `MajorMinor`, or goes on
with a dot after its `MajorMinor`. -/
theorem shape_of_IsValid (v : GoString) (h : IsValid v = true) :
    v = Major v ∨ v = MajorMinor v ∨ ∃ tail, v = MajorMinor v ++ '.' :: tail := by
  unfold IsValid at h
  cases e : parse v with
  | none => rw [e] at h; simp at h
  | some pv =>
    rw [Major_eq v pv e, MajorMinor_eq v pv e]
    rcases (parse_spec v pv e).2 with ⟨h1, -, -⟩ | ⟨h1, -⟩ | ⟨tail, h1⟩
    · exact Or.inl h1
    · exact Or.inr (Or.inl h1)
    · exact Or.inr (Or.inr ⟨tail, by simpa using h1⟩)

/-- A version that goes on after its `MajorMinor` is neither its own `Major`
nor its own `MajorMinor`. -/
theorem ne_of_eq_MajorMinor_append (v tail : GoString) (hv : IsValid v = true)
    (h : v = MajorMinor v ++ '.' :: tail) : Major v ≠ v ∧ MajorMinor v ≠ v := by
  unfold IsValid at hv
  cases e : parse v with
  | none => rw [e] at hv; simp at hv
  | some pv =>
    have hM := Major_eq v pv e
    have hMM := MajorMinor_eq v pv e
    constructor
    · intro hh
      have h1 := congrArg List.length h
      have h2 := congrArg List.length hh
      have h3 := congrArg List.length hM
      have h4 := congrArg List.length hMM
      simp only [List.length_append, List.length_cons] at h1 h2 h3 h4
      omega
    · intro hh
      have h1 := congrArg List.length h
      have h2 := congrArg List.length hh
      simp only [List.length_append, List.length_cons] at h1 h2
      omega

end semver

/-! ## Lemmas on `parseRef` -/

theorem slash_toList : "/".toList = ['/'] := rfl

/-- The references `parseRef` accepts, and what it returns for them. -/
theorem parseRef_eq_ok_iff (ref dir version : GoString) :
    parseRef ref = Except.ok (dir, version) ↔
      ref = dir ++ '/' :: version ∧ '/' ∉ dir ∧ semver.IsValid version = true := by
  constructor
  · intro h
    unfold parseRef at h
    split at h
    · rename_i d v hs
      split_ifs at h with hv
      simp only [Except.ok.injEq, Prod.mk.injEq] at h
      obtain ⟨rfl, rfl⟩ := h
      obtain ⟨h1, h2, -⟩ := strings.eq_of_Split_eq_pair ref d v '/' hs
      exact ⟨h1, h2, by simpa using hv⟩
    · simp at h
  · rintro ⟨rfl, hd, hv⟩
    unfold parseRef
    rw [strings.Split_append dir version '/' hd,
      strings.Split_of_not_mem version '/' (semver.not_mem_of_IsValid version hv)]
    simp [hv]

/-- The references `parseRef` rejects as malformed are those that do not
split into exactly two parts. -/
theorem parseRef_eq_invalidTagName_iff (ref : GoString) :
    parseRef ref = Except.error (Error.invalidTagName ref) ↔
      (strings.Split ref '/').length ≠ 2 := by
  unfold parseRef
  split
  · rename_i d v hs
    rw [hs]
    split_ifs <;> simp
  · rename_i hne
    constructor
    · intro _ hl
      match hs : strings.Split ref '/', hl with
      | [d, v], _ => exact hne d v hs
    · intro _
      rfl

/-! ## Lemmas on `ghRelease` and the loop of `main` -/

/-- The trace and the result of a call of `ghRelease`. -/
theorem ghRelease_spec (env : Env) (tag target : GoString) (update : Bool)
    (files : List GoString) (w : World) :
    (ghRelease env tag target update files w).2.trace =
        w.trace ++ deleteEvents tag update ++
          [Event.exec "gh".toList (createArgs target tag files)] ∧
      (ghRelease env tag target update files w).1 =
        (env.Output (w.trace ++ deleteEvents tag update) "gh".toList
          (createArgs target tag files)).err.map
          (fun e => Error.ghReleaseCreate (Error.cmdOutput e
            (env.Output (w.trace ++ deleteEvents tag update) "gh".toList
              (createArgs target tag files)).stderr)) := by
  cases update with
  | false =>
    simp only [ghRelease, cmdOutput, deleteEvents, createArgs, Bool.false_eq_true, if_false,
      List.append_nil]
    cases (env.Output w.trace "gh".toList
      (["release".toList, "create".toList, "--target".toList, target, tag] ++ files)).err <;>
      simp
  | true =>
    simp only [ghRelease, cmdOutput, deleteEvents, createArgs, deleteArgs, if_true]
    cases (env.Output w.trace "gh".toList ["release".toList, "delete".toList,
      "--cleanup-tag".toList, "--yes".toList, tag]).err <;>
    · simp only [List.append_assoc, List.singleton_append]
      cases (env.Output (w.trace ++ [Event.exec "gh".toList ["release".toList, "delete".toList,
        "--cleanup-tag".toList, "--yes".toList, tag], Event.sleep (30 * time.Second)])
        "gh".toList
        (["release".toList, "create".toList, "--target".toList, target, tag] ++ files)).err <;>
        simp

theorem createResult_cons (env : Env) (dir refName hash : GoString) (files : List GoString)
    (t : List Event) (r : GoString) (rs : List GoString) (i : Nat) (r' : GoString) :
    createResult env dir refName hash files t (r :: rs) (i + 1) r' =
      createResult env dir refName hash files
        (t ++ releaseEvents dir refName hash files r) rs i r' := by
  simp [createResult, List.append_assoc]

/-- One round of the loop of `main`: the trace grows by `releaseEvents`, and
the result is that of the create request. -/
theorem ghRelease_round (env : Env) (dir refName hash : GoString) (files : List GoString)
    (r : GoString) (rs : List GoString) (w : World) :
    (ghRelease env (dir ++ "/".toList ++ r) hash (dir ++ "/".toList ++ r != refName)
        files w).2.trace = w.trace ++ releaseEvents dir refName hash files r ∧
      ((ghRelease env (dir ++ "/".toList ++ r) hash (dir ++ "/".toList ++ r != refName)
        files w).1 = none ↔
        (createResult env dir refName hash files w.trace (r :: rs) 0 r).err = none) := by
  obtain ⟨ht, hr⟩ := ghRelease_spec env (dir ++ "/".toList ++ r) hash
    (dir ++ "/".toList ++ r != refName) files w
  refine ⟨by rw [ht]; simp [releaseEvents, List.append_assoc], ?_⟩
  rw [hr]
  simp [createResult]

/-- The loop of `main` goes through a beginning of the releases: either
through all of them, every create request succeeding, or up to the first
one whose create request fails. -/
theorem mainLoop_spec (env : Env) (dir refName hash : GoString) (files : List GoString)
    (rs : List GoString) (w : World) :
    ∃ k, k ≤ rs.length ∧
      (mainLoop env dir refName hash files rs w).2.trace =
        w.trace ++ (rs.take k).flatMap (releaseEvents dir refName hash files) ∧
      (((mainLoop env dir refName hash files rs w).1 = Except.ok () ∧ k = rs.length ∧
          ∀ i r, rs[i]? = some r →
            (createResult env dir refName hash files w.trace rs i r).err = none) ∨
        ∃ j r err, k = j + 1 ∧ rs[j]? = some r ∧
          (mainLoop env dir refName hash files rs w).1 =
            Except.error (Fatal.createRelease (dir ++ "/".toList ++ r) err) ∧
          (createResult env dir refName hash files w.trace rs j r).err ≠ none ∧
          ∀ i r', i < j → rs[i]? = some r' →
            (createResult env dir refName hash files w.trace rs i r').err = none) := by
  induction rs generalizing w with
  | nil =>
    refine ⟨0, le_refl _, by simp [mainLoop], Or.inl ⟨by simp [mainLoop], rfl, ?_⟩⟩
    intro i r h
    simp at h
  | cons r rs ih =>
    obtain ⟨ht, hr⟩ := ghRelease_round env dir refName hash files r rs w
    cases hg : ghRelease env (dir ++ "/".toList ++ r) hash (dir ++ "/".toList ++ r != refName)
      files w with
    | mk res w1 =>
      rw [hg] at ht hr
      simp only at ht hr
      cases res with
      | some err =>
        have hfail : (createResult env dir refName hash files w.trace (r :: rs) 0 r).err
            ≠ none := fun h => by simpa using hr.mpr h
        have hstep : mainLoop env dir refName hash files (r :: rs) w =
            (Except.error (Fatal.createRelease (dir ++ "/".toList ++ r) err), w1) := by
          simp only [mainLoop, mainLoop.tag, mainLoop.update, hg]
        rw [hstep]
        refine ⟨1, by simp, ?_, Or.inr ⟨0, r, err, rfl, by simp, rfl, hfail, ?_⟩⟩
        · simp [ht]
        · intro i r' hi
          omega
      | none =>
        have hok := hr.mp rfl
        have hstep : mainLoop env dir refName hash files (r :: rs) w =
            mainLoop env dir refName hash files rs w1 := by
          simp only [mainLoop, mainLoop.tag, mainLoop.update, hg]
        obtain ⟨k, hk, htr, hcase⟩ := ih w1
        rw [hstep]
        refine ⟨k + 1, by simpa using hk, ?_, ?_⟩
        · rw [htr, ht]
          simp [List.append_assoc]
        · rcases hcase with ⟨h1, h2, h3⟩ | ⟨j, r2, err, h1, h2, h3, h4, h5⟩
          · refine Or.inl ⟨h1, by simp [h2], ?_⟩
            intro i r' hi
            cases i with
            | zero =>
              have : r = r' := by simpa using hi
              subst this
              exact hok
            | succ i =>
              rw [createResult_cons, ← ht]
              exact h3 i r' (by simpa using hi)
          · refine Or.inr ⟨j + 1, r2, err, by rw [h1], by simpa using h2, h3, ?_, ?_⟩
            · rw [createResult_cons, ← ht]
              exact h4
            · intro i r' hi hget
              cases i with
              | zero =>
                have : r = r' := by simpa using hget
                subst this
                exact hok
              | succ i =>
                rw [createResult_cons, ← ht]
                exact h5 i r' (by omega) (by simpa using hget)

/-! ## No delete after a create of the same tag -/

theorem createArgs_ne_deleteArgs (target tag : GoString) (files : List GoString)
    (tag' : GoString) : createArgs target tag files ≠ deleteArgs tag' := by
  intro h
  have h2 := (List.cons.inj (List.cons.inj h).2).1
  exact absurd h2 (by decide)

theorem tag_of_createArgs_eq (target tag : GoString) (files : List GoString)
    (target' tag' : GoString) (files' : List GoString)
    (h : createArgs target tag files = createArgs target' tag' files') : tag = tag' := by
  simp only [createArgs, List.cons_append, List.nil_append, List.cons.injEq] at h
  exact h.2.2.2.2.1

theorem tag_of_deleteArgs_eq (tag tag' : GoString) (h : deleteArgs tag = deleteArgs tag') :
    tag = tag' := by
  simp only [deleteArgs, List.cons.injEq] at h
  exact h.2.2.2.2.1

/-- A create request among the actions of the round for `r` is for the tag
of `r`. -/
theorem tag_of_create_mem (dir refName hash : GoString) (files : List GoString)
    (r target tag : GoString) (files' : List GoString)
    (h : Event.exec "gh".toList (createArgs target tag files') ∈
      releaseEvents dir refName hash files r) : tag = dir ++ "/".toList ++ r := by
  unfold releaseEvents deleteEvents at h
  split_ifs at h with hu
  · simp only [List.cons_append, List.nil_append, List.mem_cons, Event.exec.injEq, true_and,
      List.mem_singleton, reduceCtorEq, false_or, List.not_mem_nil, or_false] at h
    rcases h with h | h
    · exact absurd h (createArgs_ne_deleteArgs _ _ _ _)
    · exact tag_of_createArgs_eq _ _ _ _ _ _ h
  · simp only [List.nil_append, List.mem_singleton, Event.exec.injEq, true_and] at h
    exact tag_of_createArgs_eq _ _ _ _ _ _ h

/-- A delete request among the actions of the round for `r` is for the tag
of `r`, and that tag is not the reference. -/
theorem tag_of_delete_mem (dir refName hash : GoString) (files : List GoString)
    (r tag : GoString)
    (h : Event.exec "gh".toList (deleteArgs tag) ∈ releaseEvents dir refName hash files r) :
    tag = dir ++ "/".toList ++ r ∧ dir ++ "/".toList ++ r ≠ refName := by
  unfold releaseEvents deleteEvents at h
  split_ifs at h with hu
  · simp only [List.cons_append, List.nil_append, List.mem_cons, Event.exec.injEq, true_and,
      List.mem_singleton, reduceCtorEq, false_or, List.not_mem_nil, or_false] at h
    rcases h with h | h
    · exact ⟨tag_of_deleteArgs_eq _ _ h, by simpa using hu⟩
    · exact absurd h.symm (createArgs_ne_deleteArgs _ _ _ _)
  · simp only [List.nil_append, List.mem_singleton, Event.exec.injEq, true_and] at h
    exact absurd h.symm (createArgs_ne_deleteArgs _ _ _ _)

/-- Within one round no delete request follows a create request. -/
theorem pairwise_releaseEvents (dir refName hash : GoString) (files : List GoString)
    (r : GoString) :
    (releaseEvents dir refName hash files r).Pairwise (fun e' e => ¬ deletesCreated e' e) := by
  unfold releaseEvents deleteEvents
  split_ifs with hu
  · simp only [List.cons_append, List.nil_append, List.pairwise_cons, List.mem_cons,
      List.mem_singleton, List.not_mem_nil, forall_eq_or_imp, forall_eq, List.Pairwise.nil,
      and_true, IsEmpty.forall_iff, implies_true]
    refine ⟨⟨?_, ?_⟩, ?_⟩
    · rintro ⟨tag, target, files', h1, -⟩
      cases h1
    · rintro ⟨tag, target, files', h1, -⟩
      simp only [Event.exec.injEq, true_and] at h1
      exact createArgs_ne_deleteArgs _ _ _ _ h1
    · rintro ⟨tag, target, files', h1, -⟩
      simp only [Event.exec.injEq, true_and] at h1
      exact createArgs_ne_deleteArgs _ _ _ _ h1
  · simp

/-- When equal releases in the list can only be the reference itself, no
tag is deleted after it was created in the same run. -/
theorem pairwise_flatMap_releaseEvents (dir refName hash : GoString) (files : List GoString)
    (rs : List GoString)
    (h : rs.Pairwise (fun a b => a = b → dir ++ "/".toList ++ b = refName)) :
    (rs.flatMap (releaseEvents dir refName hash files)).Pairwise
      (fun e' e => ¬ deletesCreated e' e) := by
  induction rs with
  | nil => simp
  | cons r rs ih =>
    rw [List.pairwise_cons] at h
    rw [List.flatMap_cons, List.pairwise_append]
    refine ⟨pairwise_releaseEvents dir refName hash files r, ih h.2, ?_⟩
    rintro a ha b hb ⟨tag, target, files', rfl, rfl⟩
    obtain ⟨r', hr', hb'⟩ := List.mem_flatMap.mp hb
    have h1 := tag_of_create_mem dir refName hash files r target tag files' ha
    obtain ⟨h2, h3⟩ := tag_of_delete_mem dir refName hash files r' tag hb'
    have h4 : r = r' := by
      rw [h1] at h2
      exact List.append_cancel_left h2
    exact h3 (h.1 r' hr' h4)

/-- In the releases derived from an accepted reference, equal entries can
only be the version itself. -/
theorem pairwise_releases (refName dir version : GoString)
    (h : parseRef refName = Except.ok (dir, version)) :
    (releases version).Pairwise (fun a b => a = b → dir ++ "/".toList ++ b = refName) := by
  obtain ⟨href, -, hv⟩ := (parseRef_eq_ok_iff refName dir version).mp h
  have hfull : dir ++ "/".toList ++ version = refName := by
    rw [href, slash_toList]
    simp
  unfold releases
  split_ifs with hp
  · simp only [List.cons_append, List.nil_append, List.pairwise_cons, List.mem_cons,
      List.mem_singleton, List.not_mem_nil, forall_eq_or_imp, forall_eq, List.Pairwise.nil,
      and_true, IsEmpty.forall_iff, implies_true]
    refine ⟨⟨?_, fun _ => hfull⟩, fun _ => hfull⟩
    intro hh
    exact absurd hh (semver.Major_ne_MajorMinor version hv)
  · simp

/-! ## Lemmas on `readDir` and `main` -/

/-- The loop of `readDir` adds, in order, the joined path of every entry
that is not a directory. -/
theorem readDirLoop_fst (env : Env) (dir : GoString) (entries : List DirEntry)
    (files : List GoString) (w : World) :
    (readDirLoop env dir entries files w).1 =
      files ++ (entries.filter (fun e => !e.IsDir)).map (fun e => env.Join dir e.Name) := by
  induction entries generalizing files w with
  | nil => simp [readDirLoop]
  | cons e es ih =>
    unfold readDirLoop
    by_cases hd : e.IsDir = true
    · rw [if_pos hd, ih]
      simp [hd]
    · rw [if_neg hd, ih]
      simp [hd]

/-- After the reference is parsed, the files are listed and the hash is
found, `main` runs its loop on the releases of the version. -/
theorem main_eq_mainLoop (env : Env) (w w1 w2 : World) (dir version hash : GoString)
    (files : List GoString)
    (h : parseRef env.GITHUB_REF_NAME = Except.ok (dir, version))
    (hread : readDir env dir w = (Except.ok files, w1))
    (hhash : gitHash env env.GITHUB_REF_NAME w1 = (Except.ok hash, w2)) :
    main env w = mainLoop env dir env.GITHUB_REF_NAME hash files (releases version) w2 := by
  have hne : ¬ env.GITHUB_REF_NAME = [] := by
    intro he
    rw [he] at h
    simp [parseRef, strings.Split] at h
  unfold main
  simp only [if_neg hne, h, hread, hhash]

/-! ## The release set (C1, C2) -/

/-- C1.  For every reference accepted by `parseRef` whose version has an
empty prerelease label, the releases that `main` builds are exactly the
three-element list `[semver.Major version, semver.MajorMinor version,
version]`, in that order.  The first is `v` and the major number, the second
is `v`, the major number, a dot and the minor number.  The tags of the loop
are therefore `dir/vM`, `dir/vM.m` and `dir/version`, and `main` runs its
loop on exactly this list. -/
theorem releases_of_stable (ref dir version : GoString)
    (h : parseRef ref = Except.ok (dir, version))
    (hpre : semver.Prerelease version = []) :
    releases version = [semver.Major version, semver.MajorMinor version, version] ∧
      (∃ pv, semver.parse version = some pv ∧ semver.Major version = 'v' :: pv.major ∧
        semver.MajorMinor version = 'v' :: (pv.major ++ '.' :: pv.minor)) ∧
      (releases version).map (fun r => dir ++ "/".toList ++ r) =
        [dir ++ "/".toList ++ semver.Major version,
          dir ++ "/".toList ++ semver.MajorMinor version,
          dir ++ "/".toList ++ version] ∧
      ∀ (env : Env) (w w1 w2 : World) (files : List GoString) (hash : GoString),
        env.GITHUB_REF_NAME = ref → readDir env dir w = (Except.ok files, w1) →
        gitHash env ref w1 = (Except.ok hash, w2) →
        main env w = mainLoop env dir ref hash files
          [semver.Major version, semver.MajorMinor version, version] w2 := by
  have hrel : releases version =
      [semver.Major version, semver.MajorMinor version, version] := by
    simp [releases, hpre]
  have hv := ((parseRef_eq_ok_iff ref dir version).mp h).2.2
  refine ⟨hrel, ?_, by rw [hrel]; rfl, ?_⟩
  · unfold semver.IsValid at hv
    cases e : semver.parse version with
    | none => rw [e] at hv; simp at hv
    | some pv => exact ⟨pv, rfl, semver.Major_eq version pv e, semver.MajorMinor_eq version pv e⟩
  · intro env w w1 w2 files hash henv hread hhash
    subst henv
    rw [main_eq_mainLoop env w w1 w2 dir version hash files h hread hhash, hrel]

/-- C1, at the reference `checktypes/v1.2.3`: the releases are `v1`, `v1.2`
and `v1.2.3`. -/
theorem releases_of_stable_witness :
    parseRef "checktypes/v1.2.3".toList = Except.ok ("checktypes".toList, "v1.2.3".toList) ∧
      semver.Prerelease "v1.2.3".toList = [] ∧
      releases "v1.2.3".toList = ["v1".toList, "v1.2".toList, "v1.2.3".toList] :=
  ⟨by decide, by decide,
    (releases_of_stable "checktypes/v1.2.3".toList "checktypes".toList "v1.2.3".toList
      (by decide) (by decide)).1.trans (by decide)⟩

/-- C2.  For every reference accepted by `parseRef` whose version has a
non-empty prerelease label (with or without build metadata), the releases
that `main` builds are exactly the one-element list `[version]`: neither
`semver.Major version` nor `semver.MajorMinor version` is in it, and `main`
runs its loop on exactly this list. -/
theorem releases_of_prerelease (ref dir version : GoString)
    (h : parseRef ref = Except.ok (dir, version))
    (hpre : semver.Prerelease version ≠ []) :
    releases version = [version] ∧
      semver.Major version ∉ releases version ∧
      semver.MajorMinor version ∉ releases version ∧
      ∀ (env : Env) (w w1 w2 : World) (files : List GoString) (hash : GoString),
        env.GITHUB_REF_NAME = ref → readDir env dir w = (Except.ok files, w1) →
        gitHash env ref w1 = (Except.ok hash, w2) →
        main env w = mainLoop env dir ref hash files [version] w2 := by
  have hrel : releases version = [version] := by
    simp [releases, hpre]
  obtain ⟨h1, h2⟩ := semver.ne_of_Prerelease_ne version hpre
  refine ⟨hrel, by rw [hrel]; simpa using h1, by rw [hrel]; simpa using h2, ?_⟩
  intro env w w1 w2 files hash henv hread hhash
  subst henv
  rw [main_eq_mainLoop env w w1 w2 dir version hash files h hread hhash, hrel]

/-- C2, at the references `lib/v0.9.0-beta.1` and, with build metadata,
`lib/v0.9.0-beta.1+b7`. -/
theorem releases_of_prerelease_witness :
    parseRef "lib/v0.9.0-beta.1".toList = Except.ok ("lib".toList, "v0.9.0-beta.1".toList) ∧
      semver.Prerelease "v0.9.0-beta.1".toList = "-beta.1".toList ∧
      releases "v0.9.0-beta.1".toList = ["v0.9.0-beta.1".toList] ∧
      releases "v0.9.0-beta.1+b7".toList = ["v0.9.0-beta.1+b7".toList] :=
  ⟨by decide, by decide,
    (releases_of_prerelease "lib/v0.9.0-beta.1".toList "lib".toList "v0.9.0-beta.1".toList
      (by decide) (by decide)).1,
    (releases_of_prerelease "lib/v0.9.0-beta.1+b7".toList "lib".toList
      "v0.9.0-beta.1+b7".toList (by decide) (by decide)).1⟩

/-! ## The reference parser (C4, C5, C6) -/

/-- C4, as stated, fails.  The reference `/v1.2.3` splits into an empty
directory part and `v1.2.3`, and `parseRef` accepts it with the empty
directory; the reference `dir/` splits into `dir` and an empty version
part, and `parseRef` fails with the version error, not the format error. -/
theorem parseRef_empty_part_counterexample :
    strings.Split "/v1.2.3".toList '/' = [[], "v1.2.3".toList] ∧
      parseRef "/v1.2.3".toList = Except.ok ([], "v1.2.3".toList) ∧
      strings.Split "dir/".toList '/' = ["dir".toList, []] ∧
      parseRef "dir/".toList = Except.error (Error.invalidVersion []) := by
  decide

/-- C4, amended.  A reference that does not split on `/` into exactly two
parts, that is one with no separator or with more than one, fails with the
format error (Go returns the empty `dir` and `version` with it).  A
reference that splits into exactly two parts never fails with the format
error, whether or not a part is empty: it is accepted when its second part
is a valid version and fails with the version error otherwise. -/
theorem parseRef_format_error (ref : GoString) :
    ((strings.Split ref '/').length ≠ 2 ↔ ref.count '/' ≠ 1) ∧
      ((strings.Split ref '/').length ≠ 2 →
        parseRef ref = Except.error (Error.invalidTagName ref)) ∧
      ∀ dir version, strings.Split ref '/' = [dir, version] →
        parseRef ref =
          if semver.IsValid version = true then Except.ok (dir, version)
          else Except.error (Error.invalidVersion version) := by
  refine ⟨?_, (parseRef_eq_invalidTagName_iff ref).mpr, ?_⟩
  · rw [strings.length_Split]
    omega
  · intro dir version hs
    unfold parseRef
    rw [hs]
    by_cases hv : semver.IsValid version = true <;> simp [hv]

/-- C4 amended, at the references `bad` (no separator) and `a/b/v1.2.3` (two
separators), which get the format error, and `dir/`, which gets the version
error. -/
theorem parseRef_format_error_witness :
    parseRef "bad".toList = Except.error (Error.invalidTagName "bad".toList) ∧
      parseRef "a/b/v1.2.3".toList = Except.error (Error.invalidTagName "a/b/v1.2.3".toList) ∧
      parseRef "dir/".toList = Except.error (Error.invalidVersion []) :=
  ⟨(parseRef_format_error "bad".toList).2.1 (by decide),
    (parseRef_format_error "a/b/v1.2.3".toList).2.1 (by decide),
    ((parseRef_format_error "dir/".toList).2.2 "dir".toList [] (by decide)).trans (by decide)⟩

/-- C5, as stated, fails: `parseRef` accepts `dir/v1` and `dir/v1.2`, whose
second parts lack the patch number, and the minor number too in the first,
because `semver.IsValid` takes `vMAJOR` and `vMAJOR.MINOR` as shorthands of
`vMAJOR.0.0` and `vMAJOR.MINOR.0`. -/
theorem parseRef_shorthand_counterexample :
    strings.Split "dir/v1".toList '/' = ["dir".toList, "v1".toList] ∧
      parseRef "dir/v1".toList = Except.ok ("dir".toList, "v1".toList) ∧
      strings.Split "dir/v1.2".toList '/' = ["dir".toList, "v1.2".toList] ∧
      parseRef "dir/v1.2".toList = Except.ok ("dir".toList, "v1.2".toList) := by
  decide

/-- C5, amended.  For every reference that splits on `/` into exactly two
parts, `parseRef` fails with the version error exactly when
`semver.IsValid` rejects the second part, and it does so whenever the second
part is not of the form `vMAJOR`, `vMAJOR.MINOR` or
`vMAJOR.MINOR.PATCH[-PRERELEASE][+BUILD]` with numeric components: the
minor and patch numbers may be left out together with what follows them. -/
theorem parseRef_version_error (ref dir version : GoString)
    (hs : strings.Split ref '/' = [dir, version]) :
    (parseRef ref = Except.error (Error.invalidVersion version) ↔
        semver.IsValid version = false) ∧
      (¬ semver.HasForm version →
        parseRef ref = Except.error (Error.invalidVersion version)) := by
  have hiff : parseRef ref = Except.error (Error.invalidVersion version) ↔
      semver.IsValid version = false := by
    unfold parseRef
    rw [hs]
    by_cases hv : semver.IsValid version = true <;> simp [hv]
  refine ⟨hiff, fun hform => hiff.mpr ?_⟩
  by_contra hv
  exact hform (semver.HasForm_of_IsValid version (by simpa using hv))

/-- C5 amended, at the reference `dir/1.2.3`: the version lacks the `v` and is
rejected with the version error. -/
theorem parseRef_version_error_witness :
    strings.Split "dir/1.2.3".toList '/' = ["dir".toList, "1.2.3".toList] ∧
      semver.IsValid "1.2.3".toList = false ∧
      parseRef "dir/1.2.3".toList = Except.error (Error.invalidVersion "1.2.3".toList) :=
  ⟨by decide, by decide,
    (parseRef_version_error "dir/1.2.3".toList "dir".toList "1.2.3".toList
      (by decide)).1.mpr (by decide)⟩

/-- C6.  Whenever `parseRef ref` succeeds with `(dir, version)`, then
`dir + "/" + version` is `ref`, `dir` has no slash and `version` satisfies
`semver.IsValid`.  Conversely, for every `d` without a slash and every valid
version `v`, `parseRef (d + "/" + v)` succeeds with `(d, v)`. -/
theorem parseRef_roundtrip :
    (∀ ref dir version : GoString, parseRef ref = Except.ok (dir, version) →
        dir ++ "/".toList ++ version = ref ∧ '/' ∉ dir ∧ semver.IsValid version = true) ∧
      ∀ d v : GoString, '/' ∉ d → semver.IsValid v = true →
        parseRef (d ++ "/".toList ++ v) = Except.ok (d, v) := by
  constructor
  · intro ref dir version h
    obtain ⟨h1, h2, h3⟩ := (parseRef_eq_ok_iff ref dir version).mp h
    refine ⟨?_, h2, h3⟩
    rw [h1, slash_toList]
    simp
  · intro d v hd hv
    refine (parseRef_eq_ok_iff _ d v).mpr ⟨?_, hd, hv⟩
    rw [slash_toList]
    simp

/-- C6, at the reference `checktypes/v1.2.3`, in both directions. -/
theorem parseRef_roundtrip_witness :
    parseRef "checktypes/v1.2.3".toList = Except.ok ("checktypes".toList, "v1.2.3".toList) ∧
      ("checktypes".toList ++ "/".toList ++ "v1.2.3".toList = "checktypes/v1.2.3".toList ∧
        '/' ∉ "checktypes".toList ∧ semver.IsValid "v1.2.3".toList = true) ∧
      parseRef ("checktypes".toList ++ "/".toList ++ "v1.2.3".toList) =
        Except.ok ("checktypes".toList, "v1.2.3".toList) :=
  ⟨by decide,
    parseRef_roundtrip.1 "checktypes/v1.2.3".toList "checktypes".toList "v1.2.3".toList
      (by decide),
    parseRef_roundtrip.2 "checktypes".toList "v1.2.3".toList (by decide) (by decide)⟩

/-! ## The update flag (C3) -/

/-- C3, as stated, fails.  `parseRef` accepts `dir/v1`; the releases are
`v1`, `v1.0` and `v1`; the `vM` identifier `dir/v1` is the reference itself,
so its update flag is `false`, and the run creates it without a delete, also
a second time as the full version.  In the same way the `vM.m` identifier of
`dir/v1.2` has the update flag `false`. -/
theorem update_shorthand_counterexample :
    parseRef "dir/v1".toList = Except.ok ("dir".toList, "v1".toList) ∧
      releases "v1".toList = ["v1".toList, "v1.0".toList, "v1".toList] ∧
      mainLoop.update "dir".toList "dir/v1".toList (semver.Major "v1".toList) = false ∧
      parseRef "dir/v1.2".toList = Except.ok ("dir".toList, "v1.2".toList) ∧
      mainLoop.update "dir".toList "dir/v1.2".toList (semver.MajorMinor "v1.2".toList)
        = false ∧
      (main (exampleEnv "dir/v1".toList) World.init).2.trace =
        [Event.exec "git".toList ["show-ref".toList, "--hash".toList, "dir/v1".toList],
          Event.exec "gh".toList (createArgs "abc".toList "dir/v1".toList
            ["dir/a.bin".toList, "dir/b.bin".toList]),
          Event.exec "gh".toList (deleteArgs "dir/v1.0".toList),
          Event.sleep 30000000000,
          Event.exec "gh".toList (createArgs "abc".toList "dir/v1.0".toList
            ["dir/a.bin".toList, "dir/b.bin".toList]),
          Event.exec "gh".toList (createArgs "abc".toList "dir/v1".toList
            ["dir/a.bin".toList, "dir/b.bin".toList])] := by
  decide

/-- C3, amended.  For every reference accepted by `parseRef`, the update flag
of the loop of `main` is `false` for the full version, and for each of
`semver.Major version` and `semver.MajorMinor version` it is `true` exactly
when that identifier differs from the full version.  A valid version is its
own `Major` (`vM`), or its own `MajorMinor` (`vM.m`), or goes on after its
`MajorMinor` with a dot (`vM.m.p` and what follows); in the last case both
flags are `true`. -/
theorem update_of_release (ref dir version : GoString)
    (h : parseRef ref = Except.ok (dir, version)) :
    mainLoop.update dir ref version = false ∧
      (mainLoop.update dir ref (semver.Major version) = true ↔
        semver.Major version ≠ version) ∧
      (mainLoop.update dir ref (semver.MajorMinor version) = true ↔
        semver.MajorMinor version ≠ version) ∧
      (version = semver.Major version ∨ version = semver.MajorMinor version ∨
        ∃ tail, version = semver.MajorMinor version ++ '.' :: tail) ∧
      ∀ tail, version = semver.MajorMinor version ++ '.' :: tail →
        mainLoop.update dir ref (semver.Major version) = true ∧
        mainLoop.update dir ref (semver.MajorMinor version) = true := by
  obtain ⟨href, -, hv⟩ := (parseRef_eq_ok_iff ref dir version).mp h
  have hupd : ∀ r : GoString, mainLoop.update dir ref r = true ↔ r ≠ version := by
    intro r
    simp [mainLoop.update, mainLoop.tag, href, slash_toList]
  refine ⟨?_, hupd _, hupd _, semver.shape_of_IsValid version hv, ?_⟩
  · have := hupd version
    simpa using this
  · intro tail ht
    obtain ⟨h1, h2⟩ := semver.ne_of_eq_MajorMinor_append version tail hv ht
    exact ⟨(hupd _).mpr h1, (hupd _).mpr h2⟩

/-- C3 amended, at the reference `tools/v2.0.1`: the flag is `false` for
`v2.0.1` and `true` for `v2` and `v2.0`. -/
theorem update_of_release_witness :
    parseRef "tools/v2.0.1".toList = Except.ok ("tools".toList, "v2.0.1".toList) ∧
      mainLoop.update "tools".toList "tools/v2.0.1".toList "v2.0.1".toList = false ∧
      mainLoop.update "tools".toList "tools/v2.0.1".toList (semver.Major "v2.0.1".toList)
        = true ∧
      mainLoop.update "tools".toList "tools/v2.0.1".toList
        (semver.MajorMinor "v2.0.1".toList) = true :=
  ⟨by decide,
    (update_of_release "tools/v2.0.1".toList "tools".toList "v2.0.1".toList (by decide)).1,
    (update_of_release "tools/v2.0.1".toList "tools".toList "v2.0.1".toList
      (by decide)).2.2.2.2 "1".toList (by decide)⟩

/-! ## The publisher (C7, C8, C9) -/

/-- C7.  For every tag, target and file list, and whatever the outside
answers: without `update`, `ghRelease` adds exactly one external action to
the trace, the request `gh release create --target target tag files...`;
with `update` it adds exactly the delete request for `tag`, a sleep of 30
seconds and the same create request, in this order, whether the delete
succeeded or failed. -/
theorem ghRelease_trace (env : Env) (tag target : GoString) (files : List GoString)
    (w : World) :
    (ghRelease env tag target false files w).2.trace =
        w.trace ++ [Event.exec "gh".toList
          (["release".toList, "create".toList, "--target".toList, target, tag] ++ files)] ∧
      (ghRelease env tag target true files w).2.trace =
        w.trace ++ [Event.exec "gh".toList
            ["release".toList, "delete".toList, "--cleanup-tag".toList, "--yes".toList, tag],
          Event.sleep (30 * 1000000000),
          Event.exec "gh".toList
            (["release".toList, "create".toList, "--target".toList, target, tag] ++ files)] := by
  constructor
  · rw [(ghRelease_spec env tag target false files w).1]
    simp [deleteEvents, createArgs]
  · rw [(ghRelease_spec env tag target true files w).1]
    simp [deleteEvents, createArgs, deleteArgs, time.Second]

/-- C8.  For every input and both values of `update`, `ghRelease` returns an
error if and only if the create request fails, and the error it returns is
the one of the create request; the create request is always issued.  The
answer to the delete request plays no part. -/
theorem ghRelease_error_iff (env : Env) (tag target : GoString) (update : Bool)
    (files : List GoString) (w : World) :
    ((ghRelease env tag target update files w).1 ≠ none ↔
        (env.Output (w.trace ++ deleteEvents tag update) "gh".toList
          (createArgs target tag files)).err ≠ none) ∧
      (∀ err, (ghRelease env tag target update files w).1 = some err →
        ∃ e, (env.Output (w.trace ++ deleteEvents tag update) "gh".toList
            (createArgs target tag files)).err = some e ∧
          err = Error.ghReleaseCreate (Error.cmdOutput e
            (env.Output (w.trace ++ deleteEvents tag update) "gh".toList
              (createArgs target tag files)).stderr)) ∧
      Event.exec "gh".toList (createArgs target tag files) ∈
        (ghRelease env tag target update files w).2.trace := by
  obtain ⟨ht, hr⟩ := ghRelease_spec env tag target update files w
  refine ⟨?_, ?_, ?_⟩
  · rw [hr]
    simp
  · intro err herr
    rw [hr] at herr
    obtain ⟨e, he, hee⟩ := Option.map_eq_some'.mp herr
    exact ⟨e, he, hee.symm⟩
  · rw [ht]
    simp

/-- C9.  The loop of `main` goes through the releases in order and stops at
the first failure.  For every list of releases `rs` and whatever the outside
answers, the trace grows by the actions of the first `k` releases, one
round of `ghRelease` each, where either `k` is the length of `rs`, the loop
returns without error and every create request succeeded, or the release at
index `k - 1` is the first whose create request failed and the loop returns
the fatal error for its tag.  For the releases derived from an accepted reference, no
delete request comes after a create request for the same tag. -/
theorem main_stops_at_first_failure (env : Env) (refName dir version hash : GoString)
    (files : List GoString) (w : World)
    (h : parseRef refName = Except.ok (dir, version)) :
    (∀ rs : List GoString, ∃ k, k ≤ rs.length ∧
      (mainLoop env dir refName hash files rs w).2.trace =
        w.trace ++ (rs.take k).flatMap (releaseEvents dir refName hash files) ∧
      (((mainLoop env dir refName hash files rs w).1 = Except.ok () ∧ k = rs.length ∧
          ∀ i r, rs[i]? = some r →
            (createResult env dir refName hash files w.trace rs i r).err = none) ∨
        ∃ j r err, k = j + 1 ∧ rs[j]? = some r ∧
          (mainLoop env dir refName hash files rs w).1 =
            Except.error (Fatal.createRelease (dir ++ "/".toList ++ r) err) ∧
          (createResult env dir refName hash files w.trace rs j r).err ≠ none ∧
          ∀ i r', i < j → rs[i]? = some r' →
            (createResult env dir refName hash files w.trace rs i r').err = none)) ∧
      ∀ k, (((releases version).take k).flatMap
        (releaseEvents dir refName hash files)).Pairwise
          (fun e' e => ¬ deletesCreated e' e) := by
  refine ⟨fun rs => mainLoop_spec env dir refName hash files rs w, fun k => ?_⟩
  have hfull := pairwise_flatMap_releaseEvents dir refName hash files (releases version)
    (pairwise_releases refName dir version h)
  refine List.Pairwise.sublist ?_ hfull
  have hsplit : (releases version).flatMap (releaseEvents dir refName hash files) =
      ((releases version).take k).flatMap (releaseEvents dir refName hash files) ++
        ((releases version).drop k).flatMap (releaseEvents dir refName hash files) := by
    rw [← List.flatMap_append, List.take_append_drop]
  rw [hsplit]
  exact List.sublist_append_left _ _

/-- C9, at the reference `tools/v2.0.1` with an outside where every
subprocess succeeds: all three releases are gone through, and no delete
request follows a create request for the same tag. -/
theorem main_stops_at_first_failure_witness :
    parseRef "tools/v2.0.1".toList = Except.ok ("tools".toList, "v2.0.1".toList) ∧
      (mainLoop (exampleEnv "tools/v2.0.1".toList) "tools".toList "tools/v2.0.1".toList
        "abc".toList [] (releases "v2.0.1".toList) World.init).1 = Except.ok () ∧
      (((releases "v2.0.1".toList).take 3).flatMap
        (releaseEvents "tools".toList "tools/v2.0.1".toList "abc".toList [])).Pairwise
          (fun e' e => ¬ deletesCreated e' e) :=
  ⟨by decide, by decide,
    (main_stops_at_first_failure (exampleEnv "tools/v2.0.1".toList) "tools/v2.0.1".toList
      "tools".toList "v2.0.1".toList "abc".toList [] World.init (by decide)).2 3⟩

/-! ## The attachment collector (C10) -/

/-- What `readDir` returns, for every directory name `dir` and every
`filepath.Join`: when `os.ReadDir` lists the
entries without error, `readDir` returns, in the order of the listing,
`filepath.Join dir name` for every entry `name` that is not a directory and
nothing for a directory, so as many paths as there are entries that are not
directories; when `os.ReadDir` gives an error, `readDir` returns the
`read dir` error and no paths. -/
theorem readDir_files (env : Env) (dir : GoString) (w : World) :
    (∀ entries, env.ReadDir dir = (entries, none) →
        (readDir env dir w).1 =
          Except.ok ((entries.filter (fun e => !e.IsDir)).map
            (fun e => env.Join dir e.Name)) ∧
        ((entries.filter (fun e => !e.IsDir)).map (fun e => env.Join dir e.Name)).length =
          entries.countP (fun e => !e.IsDir)) ∧
      ∀ entries err, env.ReadDir dir = (entries, some err) →
        (readDir env dir w).1 = Except.error (Error.readDir err) := by
  constructor
  · intro entries hr
    constructor
    · unfold readDir
      rw [hr]
      simp only
      rw [readDirLoop_fst env dir entries [] w]
      simp
    · rw [List.length_map, List.countP_eq_length_filter]
  · intro entries err hr
    unfold readDir
    rw [hr]

/-- C10, at its failing input.  `parseRef` accepts `./v1.2.3` with the
directory `.`.  With the `filepath.Join` of Unix and a listing of `a.bin`,
`b.bin` and the subdirectory `extra`, `readDir "."` returns `a.bin` and
`b.bin`: `filepath.Join` cleans `./a.bin` to `a.bin`, and `.` is not the
start of `a.bin`. -/
theorem readDir_dot_not_prefixed :
    parseRef "./v1.2.3".toList = Except.ok (".".toList, "v1.2.3".toList) ∧
      filepath.Join [".".toList, "a.bin".toList] = "a.bin".toList ∧
      (readDir (unixEnv "./v1.2.3".toList) ".".toList World.init).1 =
        Except.ok ["a.bin".toList, "b.bin".toList] ∧
      ¬ ".".toList <+: "a.bin".toList := by
  decide

end Release
